import Mathlib

/-!
Verification of the two value-type utilities of the rust-protobuf core:

* `Chars` (src/protobuf/src/chars.rs): a byte buffer guaranteed to hold
  valid UTF-8, modelled here as a structure holding its byte list; Rust
  `str`/`String` values are modelled as lists of Unicode scalar values and
  `str::as_bytes` as UTF-8 encoding.
* the `Duration` conversions (src/protobuf/src/well_known_types_util/duration.rs)
  between the protobuf duration record (i64 seconds, i32 nanos) and
  `std::time::Duration` (u64 seconds, u32 sub-second nanoseconds).

The UTF-8 validation below is a byte-for-byte transcription of the table used
by Rust core's `run_utf8_validation` (which `str::from_utf8` calls): one-byte
sequences are `00..=7F`; two-byte sequences have first byte `C2..=DF` and one
continuation byte `80..=BF`; three-byte sequences have first byte `E0..=EF`
with a restricted second byte excluding overlong forms and surrogates; four
byte sequences have first byte `F0..=F4` with a restricted second byte
excluding overlong forms and values past `U+10FFFF`.
-/

set_option maxRecDepth 8192

set_option maxHeartbeats 1600000

namespace RustProtobuf

/-- Admissible second byte of a three-byte UTF-8 sequence, per first byte
(Rust core's validation table: rejects overlong encodings and surrogates). -/
def utf8ThreeOk (x0 x1 : Nat) : Prop :=
  (x0 = 0xE0 ∧ 0xA0 ≤ x1 ∧ x1 ≤ 0xBF) ∨
  (0xE1 ≤ x0 ∧ x0 ≤ 0xEC ∧ 0x80 ≤ x1 ∧ x1 ≤ 0xBF) ∨
  (x0 = 0xED ∧ 0x80 ≤ x1 ∧ x1 ≤ 0x9F) ∨
  (0xEE ≤ x0 ∧ x0 ≤ 0xEF ∧ 0x80 ≤ x1 ∧ x1 ≤ 0xBF)

instance utf8ThreeOk.dec (x0 x1 : Nat) : Decidable (utf8ThreeOk x0 x1) := by
unfold utf8ThreeOk; infer_instance

/-- Admissible second byte of a four-byte UTF-8 sequence, per first byte
(Rust core's validation table: rejects overlong encodings and values past
U+10FFFF). -/
def utf8FourOk (x0 x1 : Nat) : Prop :=
  (x0 = 0xF0 ∧ 0x90 ≤ x1 ∧ x1 ≤ 0xBF) ∨
  (0xF1 ≤ x0 ∧ x0 ≤ 0xF3 ∧ 0x80 ≤ x1 ∧ x1 ≤ 0xBF) ∨
  (x0 = 0xF4 ∧ 0x80 ≤ x1 ∧ x1 ≤ 0x8F)

instance utf8FourOk.dec (x0 x1 : Nat) : Decidable (utf8FourOk x0 x1) := by
unfold utf8FourOk; infer_instance

/-- Decode the first UTF-8 character of a byte list: on success, the scalar
value and the remaining bytes; `none` if the bytes do not start with a
complete well-formed UTF-8 sequence.  Transcribes the checks of Rust core's
`run_utf8_validation` for one character. -/
def utf8DecodeChar : List Nat → Option (Nat × List Nat)
  | [] => none
  | x0 :: r =>
    if x0 < 0x80 then some (x0, r)
    else if 0xC2 ≤ x0 ∧ x0 ≤ 0xDF then
      match r with
      | x1 :: r1 =>
        if 0x80 ≤ x1 ∧ x1 ≤ 0xBF then
          some ((x0 - 0xC0) * 64 + (x1 - 0x80), r1)
        else none
      | _ => none
    else if 0xE0 ≤ x0 ∧ x0 ≤ 0xEF then
      match r with
      | x1 :: x2 :: r2 =>
        if utf8ThreeOk x0 x1 ∧ 0x80 ≤ x2 ∧ x2 ≤ 0xBF then
          some ((x0 - 0xE0) * 4096 + (x1 - 0x80) * 64 + (x2 - 0x80), r2)
        else none
      | _ => none
    else if 0xF0 ≤ x0 ∧ x0 ≤ 0xF4 then
      match r with
      | x1 :: x2 :: x3 :: r3 =>
        if utf8FourOk x0 x1 ∧ 0x80 ≤ x2 ∧ x2 ≤ 0xBF ∧ 0x80 ≤ x3 ∧ x3 ≤ 0xBF then
          some ((x0 - 0xF0) * 262144 + (x1 - 0x80) * 4096 +
                (x2 - 0x80) * 64 + (x3 - 0x80), r3)
        else none
      | _ => none
    else none

/-- Unicode scalar value: in range and not a surrogate. -/
def ScalarValue (c : Nat) : Prop :=
  c < 0x110000 ∧ (c < 0xD800 ∨ 0xE000 ≤ c)

instance ScalarValue.dec (c : Nat) : Decidable (ScalarValue c) := by
unfold ScalarValue; infer_instance

/-- UTF-8 encoding of one scalar value (the standard 1-to-4 byte encoding;
this is what `str::as_bytes` exposes for each character of a Rust string). -/
def utf8EncodeChar (c : Nat) : List Nat :=
  if c < 0x80 then [c]
  else if c < 0x800 then [0xC0 + c / 64, 0x80 + c % 64]
  else if c < 0x10000 then
    [0xE0 + c / 4096, 0x80 + (c / 64) % 64, 0x80 + c % 64]
  else
    [0xF0 + c / 262144, 0x80 + (c / 4096) % 64, 0x80 + (c / 64) % 64, 0x80 + c % 64]

/-- UTF-8 encoding of a list of scalar values (a Rust string's `as_bytes`). -/
def utf8Encode : List Nat → List Nat
  | [] => []
  | c :: cs => utf8EncodeChar c ++ utf8Encode cs

/-- Decoding one character consumes at least one byte. -/
theorem utf8DecodeChar_sublen {b : List Nat} {c : Nat} {rest : List Nat}
    (h : utf8DecodeChar b = some (c, rest)) : rest.length < b.length := by
rcases b with _ | ⟨x0, _ | ⟨x1, _ | ⟨x2, _ | ⟨x3, r⟩⟩⟩⟩
· simp [utf8DecodeChar] at h
all_goals
  simp only [utf8DecodeChar] at h
  split_ifs at h <;> cases h <;> simp <;> omega

/-- A successful one-character decode splits the input into the consumed
bytes and the rest, and the consumed bytes decode to the same character in
front of any continuation. -/
theorem utf8DecodeChar_consumed {b : List Nat} {c : Nat} {rest : List Nat}
    (h : utf8DecodeChar b = some (c, rest)) :
    ∃ cs, b = cs ++ rest ∧ 0 < cs.length ∧
      ∀ ys, utf8DecodeChar (cs ++ ys) = some (c, ys) := by
rcases b with _ | ⟨x0, _ | ⟨x1, _ | ⟨x2, _ | ⟨x3, r⟩⟩⟩⟩
· simp [utf8DecodeChar] at h
all_goals
  simp only [utf8DecodeChar] at h
  split_ifs at h <;>
  first
  | · rw [Option.some.injEq, Prod.mk.injEq] at h
      obtain ⟨hc, hrest⟩ := h
      subst hc
      subst hrest
      first
      | exact ⟨[x0], rfl, by simp, fun ys => by simp [utf8DecodeChar, *]⟩
      | exact ⟨[x0, x1], rfl, by simp, fun ys => by simp [utf8DecodeChar, *]⟩
      | exact ⟨[x0, x1, x2], rfl, by simp, fun ys => by simp [utf8DecodeChar, *]⟩
      | exact ⟨[x0, x1, x2, x3], rfl, by simp,
          fun ys => by simp [utf8DecodeChar, *]⟩
  | cases h

/-- Extending the input past a successful decode does not change the decoded
character. -/
theorem utf8DecodeChar_append {b : List Nat} {c : Nat} {rest : List Nat}
    (h : utf8DecodeChar b = some (c, rest)) (ys : List Nat) :
    utf8DecodeChar (b ++ ys) = some (c, rest ++ ys) := by
obtain ⟨cs, rfl, -, hall⟩ := utf8DecodeChar_consumed h
rw [List.append_assoc]
exact hall (rest ++ ys)

/-- If one-character decoding fails on `b`, it also fails on every truncation
of `b`. -/
theorem utf8DecodeChar_none_take {b : List Nat} (h : utf8DecodeChar b = none)
    (q : Nat) : utf8DecodeChar (b.take q) = none := by
cases hq : utf8DecodeChar (b.take q) with
| none => rfl
| some cr =>
  obtain ⟨c, rest⟩ := cr
  have := utf8DecodeChar_append hq (b.drop q)
  rw [List.take_append_drop] at this
  rw [this] at h
  cases h

/-- Fuel-based driver for full UTF-8 decoding; the fuel (always instantiated
with the list length, which bounds the number of characters) makes the
recursion structural, hence computable by the kernel. -/
def utf8DecodeFuel : Nat → List Nat → Option (List Nat)
  | _, [] => some []
  | 0, _ :: _ => none
  | fuel + 1, x0 :: r =>
    match utf8DecodeChar (x0 :: r) with
    | some (c, rest) => (utf8DecodeFuel fuel rest).map (fun t => c :: t)
    | none => none

/-- Full UTF-8 decoding of a byte list into scalar values; `none` when the
bytes are not valid UTF-8. -/
def utf8Decode (b : List Nat) : Option (List Nat) := utf8DecodeFuel b.length b

theorem utf8DecodeFuel_congr :
    ∀ f1 f2 (b : List Nat), b.length ≤ f1 → b.length ≤ f2 →
      utf8DecodeFuel f1 b = utf8DecodeFuel f2 b := by
intro f1
induction f1 with
| zero =>
  intro f2 b h1 h2
  have hbe : b = [] := by cases b <;> simp_all
  subst hbe
  cases f2 <;> rfl
| succ f ih =>
  intro f2 b h1 h2
  cases b with
  | nil => cases f2 <;> rfl
  | cons x0 r =>
    cases f2 with
    | zero => simp at h2
    | succ g =>
      cases hd : utf8DecodeChar (x0 :: r) with
      | none => simp only [utf8DecodeFuel, hd]
      | some cr =>
        obtain ⟨c, rest⟩ := cr
        have hlt := utf8DecodeChar_sublen hd
        simp only [List.length_cons] at h1 h2 hlt
        simp only [utf8DecodeFuel, hd]
        rw [ih g rest (by omega) (by omega)]

theorem utf8Decode_nil : utf8Decode [] = some [] := rfl

theorem utf8Decode_some {b : List Nat} {c : Nat} {rest : List Nat}
    (h : utf8DecodeChar b = some (c, rest)) :
    utf8Decode b = (utf8Decode rest).map (fun t => c :: t) := by
obtain ⟨x0, r, rfl⟩ : ∃ x0 r, b = x0 :: r := by
  cases b with
  | nil => simp [utf8DecodeChar] at h
  | cons x0 r => exact ⟨x0, r, rfl⟩
have hlt := utf8DecodeChar_sublen h
simp only [List.length_cons] at hlt
rw [utf8Decode, utf8Decode]
simp only [List.length_cons]
simp only [utf8DecodeFuel, h]
rw [utf8DecodeFuel_congr r.length rest.length rest (by omega) le_rfl]

theorem utf8Decode_none {b : List Nat} (hb : b ≠ [])
    (h : utf8DecodeChar b = none) : utf8Decode b = none := by
obtain ⟨x0, r, rfl⟩ : ∃ x0 r, b = x0 :: r := by
  cases b with
  | nil => exact absurd rfl hb
  | cons x0 r => exact ⟨x0, r, rfl⟩
rw [utf8Decode]
simp only [List.length_cons]
simp only [utf8DecodeFuel, h]

/-- Validity of a byte list as UTF-8 (what `str::from_utf8(..).is_ok()`
checks). -/
def Utf8Valid (b : List Nat) : Prop := (utf8Decode b).isSome = true

instance Utf8Valid.dec (b : List Nat) : Decidable (Utf8Valid b) := by
unfold Utf8Valid
infer_instance

/-- Fuel-based driver for the main loop of UTF-8 validation, mirroring Rust
core's `run_utf8_validation`: `i` is the index of the start of the character
being examined (advanced by the width of each accepted character); on the
first invalid sequence the error carries `valid_up_to = i`.  The fuel is
always instantiated with the list length. -/
def utf8ValidateGoFuel : Nat → List Nat → Nat → Except Nat Unit
  | _, [], _ => .ok ()
  | 0, _ :: _, i => .error i
  | fuel + 1, x0 :: r, i =>
    match utf8DecodeChar (x0 :: r) with
    | some (_, rest) =>
      utf8ValidateGoFuel fuel rest (i + ((x0 :: r).length - rest.length))
    | none => .error i

/-- Main loop of UTF-8 validation. -/
def utf8ValidateGo (b : List Nat) (i : Nat) : Except Nat Unit :=
  utf8ValidateGoFuel b.length b i

theorem utf8ValidateGoFuel_congr :
    ∀ f1 f2 (b : List Nat) (i : Nat), b.length ≤ f1 → b.length ≤ f2 →
      utf8ValidateGoFuel f1 b i = utf8ValidateGoFuel f2 b i := by
intro f1
induction f1 with
| zero =>
  intro f2 b i h1 h2
  have hbe : b = [] := by cases b <;> simp_all
  subst hbe
  cases f2 <;> rfl
| succ f ih =>
  intro f2 b i h1 h2
  cases b with
  | nil => cases f2 <;> rfl
  | cons x0 r =>
    cases f2 with
    | zero => simp at h2
    | succ g =>
      cases hd : utf8DecodeChar (x0 :: r) with
      | none => simp only [utf8ValidateGoFuel, hd]
      | some cr =>
        obtain ⟨c, rest⟩ := cr
        have hlt := utf8DecodeChar_sublen hd
        simp only [List.length_cons] at h1 h2 hlt
        simp only [utf8ValidateGoFuel, hd]
        rw [ih g rest _ (by omega) (by omega)]

/-- UTF-8 validation as performed by `str::from_utf8`: `ok` on valid input,
and on invalid input an error carrying the index of the start of the first
invalid sequence (Rust's `Utf8Error::valid_up_to`). -/
def utf8Validate (b : List Nat) : Except Nat Unit := utf8ValidateGo b 0

theorem utf8ValidateGo_nil (i : Nat) : utf8ValidateGo [] i = .ok () := rfl

theorem utf8ValidateGo_some {b : List Nat} {c : Nat} {rest : List Nat}
    (h : utf8DecodeChar b = some (c, rest)) (i : Nat) :
    utf8ValidateGo b i = utf8ValidateGo rest (i + (b.length - rest.length)) := by
obtain ⟨x0, r, rfl⟩ : ∃ x0 r, b = x0 :: r := by
  cases b with
  | nil => simp [utf8DecodeChar] at h
  | cons x0 r => exact ⟨x0, r, rfl⟩
have hlt := utf8DecodeChar_sublen h
simp only [List.length_cons] at hlt
rw [utf8ValidateGo, utf8ValidateGo]
simp only [List.length_cons]
simp only [utf8ValidateGoFuel, h]
rw [utf8ValidateGoFuel_congr r.length rest.length rest _ (by omega) le_rfl]
simp only [List.length_cons]

theorem utf8ValidateGo_none {b : List Nat} (hb : b ≠ [])
    (h : utf8DecodeChar b = none) (i : Nat) : utf8ValidateGo b i = .error i := by
obtain ⟨x0, r, rfl⟩ : ∃ x0 r, b = x0 :: r := by
  cases b with
  | nil => exact absurd rfl hb
  | cons x0 r => exact ⟨x0, r, rfl⟩
rw [utf8ValidateGo]
simp only [List.length_cons]
simp only [utf8ValidateGoFuel, h]

/-- Encoding a scalar value and decoding it back is the identity, in front of
any trailing bytes. -/
theorem utf8EncodeChar_decode {c : Nat} (hc : ScalarValue c) (ys : List Nat) :
    utf8DecodeChar (utf8EncodeChar c ++ ys) = some (c, ys) := by
obtain ⟨hlt, hsur⟩ := hc
unfold utf8EncodeChar
split_ifs with h1 h2 h3
· simp [utf8DecodeChar, h1]
· have hA : ¬ (0xC0 + c / 64 < 0x80) := by omega
  have hB : 0xC2 ≤ 0xC0 + c / 64 := by omega
  have hC : 0xC0 + c / 64 ≤ 0xDF := by omega
  have hD : 0x80 ≤ 0x80 + c % 64 := by omega
  have hE : 0x80 + c % 64 ≤ 0xBF := by omega
  simp [utf8DecodeChar, hA, hB, hC, hD, hE] <;> omega
· have hA : ¬ (0xE0 + c / 4096 < 0x80) := by omega
  have hB : ¬ (0xE0 + c / 4096 ≤ 0xDF) := by omega
  have hC : 0xE0 ≤ 0xE0 + c / 4096 := by omega
  have hD : 0xE0 + c / 4096 ≤ 0xEF := by omega
  have hok : utf8ThreeOk (0xE0 + c / 4096) (0x80 + (c / 64) % 64) := by
    unfold utf8ThreeOk
    omega
  have hE : 0x80 ≤ 0x80 + c % 64 := by omega
  have hF : 0x80 + c % 64 ≤ 0xBF := by omega
  simp [utf8DecodeChar, hA, hB, hC, hD, hok, hE, hF] <;> omega
· have hA : ¬ (0xF0 + c / 262144 < 0x80) := by omega
  have hB : ¬ (0xF0 + c / 262144 ≤ 0xDF) := by omega
  have hC : ¬ (0xF0 + c / 262144 ≤ 0xEF) := by omega
  have hD : 0xF0 ≤ 0xF0 + c / 262144 := by omega
  have hE : 0xF0 + c / 262144 ≤ 0xF4 := by omega
  have hok : utf8FourOk (0xF0 + c / 262144) (0x80 + (c / 4096) % 64) := by
    unfold utf8FourOk
    omega
  have hF : 0x80 ≤ 0x80 + (c / 64) % 64 := by omega
  have hG : 0x80 + (c / 64) % 64 ≤ 0xBF := by omega
  have hH : 0x80 ≤ 0x80 + c % 64 := by omega
  have hI : 0x80 + c % 64 ≤ 0xBF := by omega
  simp [utf8DecodeChar, hA, hB, hC, hD, hE, hok, hF, hG, hH, hI] <;> omega

/-- A successfully decoded character is a Unicode scalar value and re-encodes
to exactly the consumed bytes. -/
theorem utf8DecodeChar_encode {b : List Nat} {c : Nat} {rest : List Nat}
    (h : utf8DecodeChar b = some (c, rest)) :
    ScalarValue c ∧ utf8EncodeChar c ++ rest = b := by
rcases b with _ | ⟨x0, _ | ⟨x1, _ | ⟨x2, _ | ⟨x3, r⟩⟩⟩⟩
· simp [utf8DecodeChar] at h
all_goals
  simp only [utf8DecodeChar] at h
  split_ifs at h <;>
  first
  | · rw [Option.some.injEq, Prod.mk.injEq] at h
      obtain ⟨hc, hrest⟩ := h
      subst hc
      subst hrest
      try simp only [utf8ThreeOk] at *
      try simp only [utf8FourOk] at *
      refine ⟨by unfold ScalarValue; omega, ?_⟩
      first
      | rw [utf8EncodeChar, if_pos (by omega)]
      | rw [utf8EncodeChar, if_neg (by omega), if_pos (by omega)]
      | rw [utf8EncodeChar, if_neg (by omega), if_neg (by omega),
            if_pos (by omega)]
      | rw [utf8EncodeChar, if_neg (by omega), if_neg (by omega),
            if_neg (by omega)]
      simp only [List.cons_append, List.nil_append, List.cons.injEq,
        and_true] <;> omega
  | cases h

/-- Well-formed text: every element is a Unicode scalar value (the model of a
Rust `str`/`String` content). -/
def StrWF (s : List Nat) : Prop := ∀ c ∈ s, ScalarValue c

instance StrWF.dec (s : List Nat) : Decidable (StrWF s) := by
unfold StrWF
infer_instance

/-- Decoding the UTF-8 encoding of well-formed text gives the text back. -/
theorem utf8Decode_encode {s : List Nat} (hs : StrWF s) :
    utf8Decode (utf8Encode s) = some s := by
induction s with
| nil => exact utf8Decode_nil
| cons c cs ih =>
  have hc : ScalarValue c := hs c (by simp)
  have hcs : StrWF cs := fun d hd => hs d (by simp [hd])
  rw [show utf8Encode (c :: cs) = utf8EncodeChar c ++ utf8Encode cs from rfl]
  rw [utf8Decode_some (utf8EncodeChar_decode hc (utf8Encode cs))]
  rw [ih hcs]
  rfl

theorem utf8Encode_decode_aux :
    ∀ n (b : List Nat), b.length ≤ n → ∀ t, utf8Decode b = some t →
      StrWF t ∧ utf8Encode t = b := by
intro n
induction n with
| zero =>
  intro b hb t h
  have hbe : b = [] := by cases b <;> simp_all
  subst hbe
  rw [utf8Decode_nil] at h
  cases h
  exact ⟨fun c hc => absurd hc (List.not_mem_nil c), rfl⟩
| succ n ih =>
  intro b hb t h
  by_cases hbe : b = []
  · subst hbe
    rw [utf8Decode_nil] at h
    cases h
    exact ⟨fun c hc => absurd hc (List.not_mem_nil c), rfl⟩
  · cases hd : utf8DecodeChar b with
    | none =>
      rw [utf8Decode_none hbe hd] at h
      cases h
    | some cr =>
      obtain ⟨c, rest⟩ := cr
      rw [utf8Decode_some hd] at h
      cases hrest : utf8Decode rest with
      | none =>
        rw [hrest] at h
        cases h
      | some ts =>
        rw [hrest] at h
        cases h
        obtain ⟨hsv, henc⟩ := utf8DecodeChar_encode hd
        have hlen : rest.length ≤ n := by
          have := utf8DecodeChar_sublen hd
          omega
        obtain ⟨hwf, hencr⟩ := ih rest hlen ts hrest
        refine ⟨?_, ?_⟩
        · intro d hd2
          rcases List.mem_cons.mp hd2 with rfl | hmem
          · exact hsv
          · exact hwf d hmem
        · rw [show utf8Encode (c :: ts) = utf8EncodeChar c ++ utf8Encode ts
            from rfl, hencr, henc]

/-- A successful full decode yields well-formed text whose encoding is the
original byte list. -/
theorem utf8Encode_decode {b t : List Nat} (h : utf8Decode b = some t) :
    StrWF t ∧ utf8Encode t = b :=
utf8Encode_decode_aux b.length b le_rfl t h

theorem validateGo_ok_iff_aux :
    ∀ n (b : List Nat) (i : Nat), b.length ≤ n →
      (utf8ValidateGo b i = .ok () ↔ (utf8Decode b).isSome = true) := by
intro n
induction n with
| zero =>
  intro b i hb
  have hbe : b = [] := by cases b <;> simp_all
  subst hbe
  rw [utf8ValidateGo_nil, utf8Decode_nil]
  simp
| succ n ih =>
  intro b i hb
  by_cases hbe : b = []
  · subst hbe
    rw [utf8ValidateGo_nil, utf8Decode_nil]
    simp
  · cases hd : utf8DecodeChar b with
    | none =>
      rw [utf8ValidateGo_none hbe hd, utf8Decode_none hbe hd]
      simp
    | some cr =>
      obtain ⟨c, rest⟩ := cr
      rw [utf8ValidateGo_some hd, utf8Decode_some hd]
      have hlen : rest.length ≤ n := by
        have := utf8DecodeChar_sublen hd
        omega
      rw [ih rest (i + (b.length - rest.length)) hlen]
      cases utf8Decode rest <;> simp

/-- Validation succeeds exactly on the byte lists that decode. -/
theorem utf8Validate_ok_iff (b : List Nat) :
    utf8Validate b = .ok () ↔ Utf8Valid b :=
validateGo_ok_iff_aux b.length b 0 le_rfl

theorem validateGo_error_aux :
    ∀ n (b : List Nat) (i p : Nat), b.length ≤ n →
      utf8ValidateGo b i = .error p →
      i ≤ p ∧ Utf8Valid (b.take (p - i)) ∧
        ∀ q, p - i < q → q ≤ b.length → ¬ Utf8Valid (b.take q) := by
intro n
induction n with
| zero =>
  intro b i p hb h
  have hbe : b = [] := by cases b <;> simp_all
  subst hbe
  rw [utf8ValidateGo_nil] at h
  cases h
| succ n ih =>
  intro b i p hb h
  by_cases hbe : b = []
  · subst hbe
    rw [utf8ValidateGo_nil] at h
    cases h
  · cases hd : utf8DecodeChar b with
    | none =>
      rw [utf8ValidateGo_none hbe hd] at h
      cases h
      refine ⟨le_rfl, ?_, ?_⟩
      · simp [Utf8Valid, utf8Decode_nil]
      · intro q hq hqlen hval
        have hne : b.take q ≠ [] := by
          cases b with
          | nil => exact absurd rfl hbe
          | cons x r =>
            cases q with
            | zero => omega
            | succ q => simp
        have : utf8Decode (b.take q) = none :=
          utf8Decode_none hne (utf8DecodeChar_none_take hd q)
        rw [Utf8Valid, this] at hval
        cases hval
    | some cr =>
      obtain ⟨c, rest⟩ := cr
      rw [utf8ValidateGo_some hd] at h
      have hlen : rest.length ≤ n := by
        have := utf8DecodeChar_sublen hd
        omega
      obtain ⟨hip, hvalid, hnot⟩ :=
        ih rest (i + (b.length - rest.length)) p hlen h
      obtain ⟨cs, hsplit, hcs, hall⟩ := utf8DecodeChar_consumed hd
      have hblen : b.length = cs.length + rest.length := by
        rw [hsplit]
        simp
      have hk : b.length - rest.length = cs.length := by omega
      rw [hk] at hip hvalid hnot
      have htake : ∀ m, b.take (cs.length + m) = cs ++ rest.take m := by
        intro m
        rw [hsplit, List.take_append_eq_append_take]
        rw [List.take_of_length_le (by omega)]
        congr 1
        congr 1
        omega
      have htrans : ∀ x, utf8Decode (cs ++ x) = (utf8Decode x).map
          (fun t => c :: t) := fun x => utf8Decode_some (hall x)
      refine ⟨by omega, ?_, ?_⟩
      · have hpi : p - i = cs.length + (p - (i + cs.length)) := by omega
        rw [hpi, htake, Utf8Valid, htrans]
        rw [Utf8Valid] at hvalid
        obtain ⟨t, ht⟩ := Option.isSome_iff_exists.mp hvalid
        rw [ht]
        rfl
      · intro q hq hqlen hval
        have hq2 : q = cs.length + (q - cs.length) := by omega
        rw [hq2, htake, Utf8Valid, htrans] at hval
        have hv2 : Utf8Valid (rest.take (q - cs.length)) := by
          rw [Utf8Valid]
          rcases hx : utf8Decode (rest.take (q - cs.length)) with _ | t
          · rw [hx] at hval
            simp at hval
          · rfl
        exact hnot (q - cs.length) (by omega) (by omega) hv2

/-- On invalid input, validation reports the length of the longest valid
prefix: the bytes before the reported position are valid and every strictly
longer truncation is invalid. -/
theorem utf8Validate_error {b : List Nat} {p : Nat}
    (h : utf8Validate b = .error p) :
    Utf8Valid (b.take p) ∧ ∀ q, p < q → q ≤ b.length → ¬ Utf8Valid (b.take q) := by
obtain ⟨-, hvalid, hnot⟩ := validateGo_error_aux b.length b 0 p le_rfl h
simpa using ⟨hvalid, hnot⟩

/-- Model of `Chars` (src/protobuf/src/chars.rs): a wrapper around a
`bytes::Bytes` buffer, which at the value level is its byte content (sharing
and reference counting are not observable on values). -/
structure Chars where
  bytes : List Nat
deriving DecidableEq

/-- `Chars::new`: new empty object. -/
def Chars.new : Chars := ⟨[]⟩

/-- `Chars::clear` calls `Bytes::clear`, leaving the empty buffer. -/
def Chars.clear (_c : Chars) : Chars := ⟨[]⟩

/-- `Chars::from_bytes`: runs `str::from_utf8` on the bytes and wraps them
unchanged on success; on failure propagates the `Utf8Error` (carrying
`valid_up_to`, modelled as the error index). -/
def Chars.from_bytes (b : List Nat) : Except Nat Chars :=
  match utf8Validate b with
  | .ok _ => .ok ⟨b⟩
  | .error p => .error p

/-- `Chars::len`: length in bytes. -/
def Chars.len (c : Chars) : Nat := c.bytes.length

/-- `Chars::is_empty`. -/
def Chars.is_empty (c : Chars) : Bool := c.bytes.isEmpty

/-- `Chars::into_bytes`: consume self and return the underlying bytes. -/
def Chars.into_bytes (c : Chars) : List Nat := c.bytes

/-- `Clone for Chars` clones the buffer handle: same byte content. -/
def Chars.clone (c : Chars) : Chars := c

/-- `Deref for Chars`: `str::from_utf8_unchecked(&self.0)`.  A `str` is
modelled by its list of scalar values, so the unchecked reinterpretation is
the UTF-8 decoding of the bytes; `[]` stands for the unspecified result on
invalid bytes, which the construction invariant rules out. -/
def Chars.deref (c : Chars) : List Nat := (utf8Decode c.bytes).getD []

/-- `Chars::as_str`: returns `self` reborrowed through `Deref`. -/
def Chars.as_str (c : Chars) : List Nat := c.deref

/-- `From<&'static str> for Chars`: wraps the literal's bytes
(`Bytes::from_static(value.as_bytes())`). -/
def Chars.from_static_str (s : List Nat) : Chars := ⟨utf8Encode s⟩

/-- `From<String> for Chars`: wraps the string's byte buffer
(`Bytes::from(src)`). -/
def Chars.from_string (s : List Nat) : Chars := ⟨utf8Encode s⟩

/-- `Into<String> for Chars`: `String::from_utf8_unchecked(..)` on the owned
bytes, i.e. the decoded text under the invariant. -/
def Chars.into_string (c : Chars) : List Nat := c.deref

/-- One interaction with a `std::hash::Hasher`: `write` is `Hasher::write`
on a byte slice, `writeU8` is `Hasher::write_u8`. -/
inductive HashOp where
  | write (bs : List Nat)
  | writeU8 (b : Nat)
deriving DecidableEq

/-- Hashing a `str` feeds the hasher the string's UTF-8 bytes followed by a
single `0xFF` byte (`Hasher::write_str`, used by `impl Hash for str`). -/
def strHashOps (s : List Nat) : List HashOp :=
  [.write (utf8Encode s), .writeU8 0xFF]

/-- `impl Hash for Chars`: reborrows `self` as `&str` through `Deref` and
hashes that `str`. -/
def Chars.hashOps (c : Chars) : List HashOp := strHashOps c.deref

/-- Run an arbitrary hasher, given as its transition function on one
interaction, over an interaction trace. -/
def runHasher {H : Type} (step : H → HashOp → H) (init : H)
    (ops : List HashOp) : H := ops.foldl step init

/-- Strict lexicographic order on lists of naturals: the comparison performed
by the derived `Ord` on byte slices, and textual order on scalar-value
lists. -/
def lexLt : List Nat → List Nat → Bool
  | _, [] => false
  | [], _ :: _ => true
  | a :: as, b :: bs =>
    if a < b then true else if a = b then lexLt as bs else false

/-- Derived `PartialOrd`/`Ord` on `Chars` (via `Bytes`): strict comparison of
the underlying byte slices. -/
def Chars.lt (c d : Chars) : Bool := lexLt c.bytes d.bytes

theorem lexLt_append_same (e xs ys : List Nat) :
    lexLt (e ++ xs) (e ++ ys) = lexLt xs ys := by
induction e with
| nil => rfl
| cons x e ih => simp [lexLt, ih]

theorem lexLt_asymm : ∀ {u v : List Nat}, lexLt u v = true → lexLt v u = false := by
intro u
induction u with
| nil =>
  intro v h
  cases v with
  | nil => rfl
  | cons b bs => rfl
| cons a as ih =>
  intro v h
  cases v with
  | nil => cases h
  | cons b bs =>
    simp only [lexLt] at h ⊢
    split_ifs at h ⊢ <;> first | rfl | omega | exact ih h | cases h

theorem utf8EncodeChar_ne_nil (c : Nat) : utf8EncodeChar c ≠ [] := by
unfold utf8EncodeChar
split_ifs <;> simp

/-- UTF-8 encoding of single scalar values is strictly monotone for the
byte-wise lexicographic order, in front of arbitrary tails. -/
theorem utf8EncodeChar_lexLt {a b : Nat} (ha : ScalarValue a)
    (hb : ScalarValue b) (hab : a < b) (xs ys : List Nat) :
    lexLt (utf8EncodeChar a ++ xs) (utf8EncodeChar b ++ ys) = true := by
obtain ⟨ha1, ha2⟩ := ha
obtain ⟨hb1, hb2⟩ := hb
unfold utf8EncodeChar
split_ifs <;>
· simp only [List.cons_append, List.nil_append, lexLt]
  split_ifs <;> first | rfl | omega | (exfalso; omega)

/-- UTF-8 encoding of well-formed text preserves strict lexicographic
order. -/
theorem utf8Encode_lexLt : ∀ {s t : List Nat}, StrWF s → StrWF t →
    lexLt (utf8Encode s) (utf8Encode t) = lexLt s t := by
intro s
induction s with
| nil =>
  intro t hs ht
  cases t with
  | nil => rfl
  | cons b t2 =>
    have hne := utf8EncodeChar_ne_nil b
    rcases he : utf8EncodeChar b with _ | ⟨x, u⟩
    · exact absurd he hne
    · show lexLt [] (utf8EncodeChar b ++ utf8Encode t2) = lexLt [] (b :: t2)
      rw [he]
      rfl
| cons a s2 ih =>
  intro t hs ht
  cases t with
  | nil =>
    have hne := utf8EncodeChar_ne_nil a
    rcases he : utf8EncodeChar a with _ | ⟨x, u⟩
    · exact absurd he hne
    · show lexLt (utf8EncodeChar a ++ utf8Encode s2) [] = lexLt (a :: s2) []
      rw [he]
      rfl
  | cons b t2 =>
    have ha := hs a (by simp)
    have hb := ht b (by simp)
    have hs2 : StrWF s2 := fun d hd => hs d (by simp [hd])
    have ht2 : StrWF t2 := fun d hd => ht d (by simp [hd])
    show lexLt (utf8EncodeChar a ++ utf8Encode s2)
        (utf8EncodeChar b ++ utf8Encode t2) = lexLt (a :: s2) (b :: t2)
    rcases Nat.lt_trichotomy a b with hab | rfl | hab
    · rw [utf8EncodeChar_lexLt ha hb hab]
      simp [lexLt, hab]
    · rw [lexLt_append_same, ih hs2 ht2]
      simp [lexLt]
    · rw [lexLt_asymm (utf8EncodeChar_lexLt hb ha hab (utf8Encode t2)
        (utf8Encode s2))]
      have h1 : ¬ (a < b) := by omega
      have h2 : a ≠ b := by omega
      simp [lexLt, h1, h2]

/-- Values of `Chars` reachable through the public API: `new` (also
`Default`), successful `from_bytes`, the two `From` conversions (whose
sources, being Rust strings, are well-formed text), and the operations
returning a `Chars` (`clear`, `Clone`). -/
inductive Chars.Reachable : Chars → Prop
  | new : Chars.Reachable Chars.new
  | from_bytes {b : List Nat} {c : Chars} :
      Chars.from_bytes b = .ok c → Chars.Reachable c
  | from_static_str {s : List Nat} : StrWF s →
      Chars.Reachable (Chars.from_static_str s)
  | from_string {s : List Nat} : StrWF s →
      Chars.Reachable (Chars.from_string s)
  | clear {c : Chars} : Chars.Reachable c → Chars.Reachable (Chars.clear c)
  | clone {c : Chars} : Chars.Reachable c → Chars.Reachable (Chars.clone c)

theorem utf8Valid_nil : Utf8Valid [] := by
rw [Utf8Valid, utf8Decode_nil]
rfl

theorem Chars.from_bytes_ok {b : List Nat} {c : Chars}
    (h : Chars.from_bytes b = .ok c) : c = ⟨b⟩ ∧ Utf8Valid b := by
rw [Chars.from_bytes] at h
split at h
· cases h
  rename_i u heq
  exact ⟨rfl, (utf8Validate_ok_iff b).mp heq⟩
· cases h

theorem Chars.from_bytes_of_valid {b : List Nat} (h : Utf8Valid b) :
    Chars.from_bytes b = .ok ⟨b⟩ := by
rw [Chars.from_bytes]
split
· rfl
· rename_i p heq
  rw [← utf8Validate_ok_iff b] at h
  rw [h] at heq
  cases heq

/-- The construction-to-destruction invariant: every reachable `Chars` holds
valid UTF-8. -/
theorem Chars.reachable_valid {c : Chars} (h : Chars.Reachable c) :
    Utf8Valid c.bytes := by
induction h with
| new => exact utf8Valid_nil
| from_bytes hok =>
  obtain ⟨rfl, hv⟩ := Chars.from_bytes_ok hok
  exact hv
| from_static_str hs =>
  rw [Chars.from_static_str, Utf8Valid, utf8Decode_encode hs]
  rfl
| from_string hs =>
  rw [Chars.from_string, Utf8Valid, utf8Decode_encode hs]
  rfl
| clear _ _ => exact utf8Valid_nil
| clone _ ih => exact ih

/-! ## Duration conversions
(src/protobuf/src/well_known_types_util/duration.rs) -/

/-- The protobuf `Duration` message: `seconds : i64`, `nanos : i32`, plus the
opaque `special_fields` attachment (out of scope, modelled as `Unit`). -/
structure PDuration where
  seconds : Int
  nanos : Int
  special_fields : Unit
deriving DecidableEq

/-- Value range of a Rust `i64` (the type of the `seconds` field). -/
def I64Range (i : Int) : Prop := -(2 ^ 63) ≤ i ∧ i < 2 ^ 63

/-- Value range of a Rust `i32` (the type of the `nanos` field). -/
def I32Range (i : Int) : Prop := -(2 ^ 31) ≤ i ∧ i < 2 ^ 31

instance I64Range.dec (i : Int) : Decidable (I64Range i) := by
unfold I64Range
infer_instance

instance I32Range.dec (i : Int) : Decidable (I32Range i) := by
unfold I32Range
infer_instance

/-- `Duration::ZERO`: zero seconds, zero nanoseconds. -/
def PDuration.ZERO : PDuration := ⟨0, 0, ()⟩

/-- Model of `std::time::Duration`: `secs` is a `u64`, `nanos` a `u32` kept
below `1e9` by construction. -/
structure StdDuration where
  secs : Nat
  nanos : Nat
deriving DecidableEq

/-- Representation invariant of `std::time::Duration` values. -/
def StdDuration.WF (d : StdDuration) : Prop :=
  d.secs < 2 ^ 64 ∧ d.nanos < 1000000000

instance StdDuration.WF.dec (d : StdDuration) : Decidable (StdDuration.WF d) := by
unfold StdDuration.WF
infer_instance

/-- Total length of a machine duration in nanoseconds. -/
def StdDuration.totalNanos (d : StdDuration) : Nat :=
  d.secs * 1000000000 + d.nanos

/-- The Rust `as i64` cast of a `u64` value: reduces modulo `2^64` into the
signed 64-bit range. It never fails: out-of-range values wrap. -/
def u64AsI64 (n : Nat) : Int :=
  if n % 2 ^ 64 < 2 ^ 63 then (n % 2 ^ 64 : Int)
  else (n % 2 ^ 64 : Int) - 2 ^ 64

/-- The Rust `as i32` cast of a `u32` value: reduces modulo `2^32` into the
signed 32-bit range. -/
def u32AsI32 (n : Nat) : Int :=
  if n % 2 ^ 32 < 2 ^ 31 then (n % 2 ^ 32 : Int)
  else (n % 2 ^ 32 : Int) - 2 ^ 32

/-- The Rust `as u64` cast of a signed value: reduces modulo `2^64`. -/
def intAsU64 (i : Int) : Nat := (i % 2 ^ 64).toNat

/-- `impl From<std::time::Duration> for Duration`: `seconds` is
`duration.as_secs() as i64`, `nanos` is `duration.subsec_nanos() as i32`,
`special_fields` from `Default::default()`. -/
def PDuration.fromStd (d : StdDuration) : PDuration :=
  { seconds := u64AsI64 d.secs, nanos := u32AsI32 d.nanos,
    special_fields := () }

/-- `std::time::Duration::from_secs`. -/
def StdDuration.from_secs (s : Nat) : StdDuration := ⟨s, 0⟩

/-- `std::time::Duration::from_nanos`. -/
def StdDuration.from_nanos (n : Nat) : StdDuration :=
  ⟨n / 1000000000, n % 1000000000⟩

/-- `Add for std::time::Duration`: adds seconds, adds nanoseconds with carry,
and panics when the seconds overflow the `u64`; the panic is modelled as
`none`. -/
def StdDuration.add (a b : StdDuration) : Option StdDuration :=
  if 1000000000 ≤ a.nanos + b.nanos then
    if a.secs + b.secs + 1 < 2 ^ 64 then
      some ⟨a.secs + b.secs + 1, a.nanos + b.nanos - 1000000000⟩
    else none
  else
    if a.secs + b.secs < 2 ^ 64 then some ⟨a.secs + b.secs, a.nanos + b.nanos⟩
    else none

/-- `impl TryInto<std::time::Duration> for Duration`: rejects when either
field is negative, otherwise returns
`Duration::from_secs(seconds as u64) + Duration::from_nanos(nanos as u64)`.
The outer `Option` stands for the (unreachable) panic of `Add`. -/
def PDuration.try_into (p : PDuration) : Option (Except String StdDuration) :=
  if p.seconds < 0 ∨ p.nanos < 0 then some (.error "proto duration < 0")
  else ((StdDuration.from_secs (intAsU64 p.seconds)).add
      (StdDuration.from_nanos (intAsU64 p.nanos))).map .ok

/-- Computation of the conversion on non-negative in-range records: the
checks pass and the nanoseconds are split into whole seconds and
remainder. -/
theorem try_into_nonneg {p : PDuration} (hs : 0 ≤ p.seconds)
    (hn : 0 ≤ p.nanos) (hsr : p.seconds < 2 ^ 63) (hnr : p.nanos < 2 ^ 31) :
    p.try_into = some (.ok ⟨p.seconds.toNat + p.nanos.toNat / 1000000000,
      p.nanos.toNat % 1000000000⟩) := by
rw [PDuration.try_into, if_neg (by omega)]
have h1 : intAsU64 p.seconds = p.seconds.toNat := by
  rw [intAsU64]
  omega
have h2 : intAsU64 p.nanos = p.nanos.toNat := by
  rw [intAsU64]
  omega
rw [h1, h2]
simp only [StdDuration.from_secs, StdDuration.from_nanos, StdDuration.add]
rw [if_neg (by omega), if_pos (by omega)]
simp

/-! ## Claims -/

/-- C1: the machine-to-record conversion is documented (impl doc `# Panics`)
and specified to fail when the whole-seconds component does not fit the
signed 64-bit `seconds` field, but the code's `as i64` cast silently wraps:
at `2^63` whole seconds (a well-formed `std::time::Duration`) no failure
occurs and the resulting record carries the wrapped, negative seconds value
`-2^63`. -/
theorem c1_from_std_wraps_instead_of_failing :
    StdDuration.WF ⟨2 ^ 63, 0⟩ ∧
    PDuration.fromStd ⟨2 ^ 63, 0⟩ =
      { seconds := -(2 ^ 63), nanos := 0, special_fields := () } ∧
    (PDuration.fromStd ⟨2 ^ 63, 0⟩).seconds < 0 := by
refine ⟨by decide, by decide, by decide⟩

/-- C2: hashing the `Chars` built from a string `s` (by either `From` impl)
produces, for every hasher, exactly the result of hashing the `str` `s`
itself: both feed the hasher the same interaction trace. -/
theorem c2_hash_eq_str_hash (s : List Nat) (hs : StrWF s) :
    ∀ (H : Type) (step : H → HashOp → H) (init : H),
      runHasher step init (Chars.hashOps (Chars.from_string s)) =
          runHasher step init (strHashOps s) ∧
      runHasher step init (Chars.hashOps (Chars.from_static_str s)) =
          runHasher step init (strHashOps s) := by
have hderef : (utf8Decode (utf8Encode s)).getD [] = s := by
  rw [utf8Decode_encode hs]
  rfl
have hd2 : Chars.deref (Chars.from_string s) = s := by
  rw [Chars.deref, Chars.from_string]
  exact hderef
have hd3 : Chars.deref (Chars.from_static_str s) = s := by
  rw [Chars.deref, Chars.from_static_str]
  exact hderef
intro H step init
constructor
· rw [Chars.hashOps, hd2]
· rw [Chars.hashOps, hd3]

theorem c2_witness :
    StrWF [102, 111, 111] ∧
    (runHasher (fun h op => op :: h) ([] : List HashOp)
        (Chars.hashOps (Chars.from_string [102, 111, 111])) =
      runHasher (fun h op => op :: h) []
        (strHashOps [102, 111, 111]) ∧
    runHasher (fun h op => op :: h) []
        (Chars.hashOps (Chars.from_static_str [102, 111, 111])) =
      runHasher (fun h op => op :: h) []
        (strHashOps [102, 111, 111])) :=
⟨by decide,
 c2_hash_eq_str_hash [102, 111, 111] (by decide)
   (List HashOp) (fun h op => op :: h) []⟩

/-- C3: every `Chars` reachable through the public constructors and
operations holds valid UTF-8: its bytes decode to well-formed text that
re-encodes to exactly those bytes, and the unchecked reinterpretations
(`Deref`, `as_str`, `Into<String>`) observe that decoded text, never invalid
UTF-8. -/
theorem c3_reachable_invariant (c : Chars) (h : Chars.Reachable c) :
    Utf8Valid c.bytes ∧
    ∃ t, utf8Decode c.bytes = some t ∧ StrWF t ∧ utf8Encode t = c.bytes ∧
      Chars.deref c = t ∧ Chars.as_str c = t ∧ Chars.into_string c = t := by
have hv := Chars.reachable_valid h
refine ⟨hv, ?_⟩
rw [Utf8Valid] at hv
obtain ⟨t, ht⟩ := Option.isSome_iff_exists.mp hv
obtain ⟨hwf, henc⟩ := utf8Encode_decode ht
have hd : Chars.deref c = t := by
  rw [Chars.deref, ht]
  rfl
exact ⟨t, ht, hwf, henc, hd, hd, hd⟩

theorem c3_witness :
    Utf8Valid (Chars.new).bytes ∧
    ∃ t, utf8Decode (Chars.new).bytes = some t ∧ StrWF t ∧
      utf8Encode t = (Chars.new).bytes ∧ Chars.deref Chars.new = t ∧
      Chars.as_str Chars.new = t ∧ Chars.into_string Chars.new = t :=
c3_reachable_invariant Chars.new Chars.Reachable.new

/-- C4: the record-to-machine conversion errors exactly when `seconds < 0`
or `nanos < 0`, with no clamping, and on non-negative fields it returns the
machine duration worth `seconds` whole seconds plus `nanos` nanoseconds. -/
theorem c4_try_into_spec (p : PDuration) (h64 : I64Range p.seconds)
    (h32 : I32Range p.nanos) :
    ((∃ e, p.try_into = some (.error e)) ↔ (p.seconds < 0 ∨ p.nanos < 0)) ∧
    (0 ≤ p.seconds → 0 ≤ p.nanos → ∃ d, p.try_into = some (.ok d) ∧
      StdDuration.WF d ∧
      (d.totalNanos : Int) = p.seconds * 1000000000 + p.nanos) := by
obtain ⟨h64a, h64b⟩ := h64
obtain ⟨h32a, h32b⟩ := h32
constructor
· constructor
  · rintro ⟨e, he⟩
    by_contra hneg
    push_neg at hneg
    obtain ⟨hs, hn⟩ := hneg
    rw [try_into_nonneg hs hn h64b h32b] at he
    simp at he
  · intro hneg
    rw [PDuration.try_into, if_pos hneg]
    exact ⟨_, rfl⟩
· intro hs hn
  refine ⟨⟨p.seconds.toNat + p.nanos.toNat / 1000000000,
      p.nanos.toNat % 1000000000⟩, try_into_nonneg hs hn h64b h32b, ?_, ?_⟩
  · rw [StdDuration.WF]
    constructor
    · show p.seconds.toNat + p.nanos.toNat / 1000000000 < 2 ^ 64
      omega
    · show p.nanos.toNat % 1000000000 < 1000000000
      omega
  · simp only [StdDuration.totalNanos]
    omega

theorem c4_witness :
    I64Range (4 : Int) ∧ I32Range (123000000 : Int) ∧
    (((∃ e, PDuration.try_into ⟨4, 123000000, ()⟩ = some (.error e)) ↔
        ((4 : Int) < 0 ∨ (123000000 : Int) < 0)) ∧
      ((0 : Int) ≤ 4 → (0 : Int) ≤ 123000000 →
        ∃ d, PDuration.try_into ⟨4, 123000000, ()⟩ = some (.ok d) ∧
          StdDuration.WF d ∧
          (d.totalNanos : Int) = 4 * 1000000000 + 123000000)) :=
⟨by decide, by decide,
 c4_try_into_spec ⟨4, 123000000, ()⟩ (by decide) (by decide)⟩

/-- C5: for every well-formed machine duration whose whole-seconds fit the
`i64` field, converting to a record and back succeeds and is the identity
(the machine type is already nanosecond-precision). -/
theorem c5_round_trip (d : StdDuration) (hwf : StdDuration.WF d)
    (hfit : d.secs < 2 ^ 63) :
    (PDuration.fromStd d).try_into = some (.ok d) := by
obtain ⟨h64, h1e9⟩ := hwf
have hsec : (PDuration.fromStd d).seconds = (d.secs : Int) := by
  simp only [PDuration.fromStd, u64AsI64]
  rw [if_pos (by omega)]
  omega
have hnan : (PDuration.fromStd d).nanos = (d.nanos : Int) := by
  simp only [PDuration.fromStd, u32AsI32]
  rw [if_pos (by omega)]
  omega
have h := try_into_nonneg (p := PDuration.fromStd d)
  (by rw [hsec]; omega) (by rw [hnan]; omega)
  (by rw [hsec]; omega) (by rw [hnan]; omega)
rw [h, hsec, hnan]
simp only [Option.some.injEq, Except.ok.injEq]
conv_rhs => rw [show d = (⟨d.secs, d.nanos⟩ : StdDuration) from rfl]
simp only [StdDuration.mk.injEq]
constructor
· omega
· omega

theorem c5_witness :
    StdDuration.WF ⟨4, 123000000⟩ ∧ (4 : Nat) < 2 ^ 63 ∧
    (PDuration.fromStd ⟨4, 123000000⟩).try_into = some (.ok ⟨4, 123000000⟩) :=
⟨by decide, by decide, c5_round_trip ⟨4, 123000000⟩ (by decide) (by decide)⟩

/-- C6: `from_bytes` succeeds exactly on valid UTF-8; on invalid input it
returns an error (no `Chars` is produced) whose position is the start of the
first invalid byte sequence: the bytes before it are valid and every longer
truncation is invalid. -/
theorem c6_from_bytes_validation (b : List Nat) :
    ((∃ c, Chars.from_bytes b = .ok c) ↔ Utf8Valid b) ∧
    (∀ p, Chars.from_bytes b = .error p →
      ¬ Utf8Valid b ∧ Utf8Valid (b.take p) ∧
        ∀ q, p < q → q ≤ b.length → ¬ Utf8Valid (b.take q)) := by
constructor
· constructor
  · rintro ⟨c, hc⟩
    exact (Chars.from_bytes_ok hc).2
  · intro hv
    exact ⟨⟨b⟩, Chars.from_bytes_of_valid hv⟩
· intro p hp
  have hval : utf8Validate b = .error p := by
    rw [Chars.from_bytes] at hp
    split at hp
    · cases hp
    · rename_i q heq
      cases hp
      exact heq
  have hnv : ¬ Utf8Valid b := by
    intro hv
    rw [← utf8Validate_ok_iff b] at hv
    rw [hv] at hval
    cases hval
  obtain ⟨h1, h2⟩ := utf8Validate_error hval
  exact ⟨hnv, h1, h2⟩

theorem c6_witness :
    ((∃ c, Chars.from_bytes [65, 255, 65] = .ok c) ↔ Utf8Valid [65, 255, 65]) ∧
    (¬ Utf8Valid [65, 255, 65] ∧
      Utf8Valid (([65, 255, 65] : List Nat).take 1) ∧
      ∀ q, 1 < q → q ≤ ([65, 255, 65] : List Nat).length →
        ¬ Utf8Valid (([65, 255, 65] : List Nat).take q)) :=
⟨(c6_from_bytes_validation [65, 255, 65]).1,
 (c6_from_bytes_validation [65, 255, 65]).2 1 rfl⟩

/-- C7: on valid UTF-8 input `from_bytes` succeeds and `as_str` (the
`Deref` view) of the result is exactly the text `b` encodes: the decoding of
`b`, which re-encodes to `b` itself. -/
theorem c7_as_str_decodes (b : List Nat) (hv : Utf8Valid b) :
    ∃ c t, Chars.from_bytes b = .ok c ∧ utf8Decode b = some t ∧
      Chars.as_str c = t ∧ Chars.deref c = t ∧ utf8Encode t = b ∧ StrWF t := by
have hok := Chars.from_bytes_of_valid hv
rw [Utf8Valid] at hv
obtain ⟨t, ht⟩ := Option.isSome_iff_exists.mp hv
obtain ⟨hwf, henc⟩ := utf8Encode_decode ht
have hd : Chars.deref ⟨b⟩ = t := by
  rw [Chars.deref]
  show (utf8Decode b).getD [] = t
  rw [ht]
  rfl
exact ⟨⟨b⟩, t, hok, ht, hd, hd, henc, hwf⟩

theorem c7_witness :
    ∃ c t, Chars.from_bytes [0x41, 0xC3, 0xA9] = .ok c ∧
      utf8Decode [0x41, 0xC3, 0xA9] = some t ∧ Chars.as_str c = t ∧
      Chars.deref c = t ∧ utf8Encode t = [0x41, 0xC3, 0xA9] ∧ StrWF t :=
c7_as_str_decodes [0x41, 0xC3, 0xA9] (by decide)

/-- C8: derived equality and ordering on `Chars` compare the byte contents,
and on valid UTF-8 contents this coincides with equality and lexicographic
comparison of the text views; the empty instance orders strictly before
every non-empty one. -/
theorem c8_eq_ord_textual (c d : Chars) (hc : Utf8Valid c.bytes)
    (hd : Utf8Valid d.bytes) :
    (c = d ↔ c.bytes = d.bytes) ∧
    (c = d ↔ Chars.deref c = Chars.deref d) ∧
    Chars.lt c d = lexLt c.bytes d.bytes ∧
    Chars.lt c d = lexLt (Chars.deref c) (Chars.deref d) ∧
    (d.bytes ≠ [] → Chars.lt Chars.new d = true ∧ Chars.new ≠ d) := by
rw [Utf8Valid] at hc hd
obtain ⟨tc, htc⟩ := Option.isSome_iff_exists.mp hc
obtain ⟨td, htd⟩ := Option.isSome_iff_exists.mp hd
obtain ⟨hwc, hec⟩ := utf8Encode_decode htc
obtain ⟨hwd, hed⟩ := utf8Encode_decode htd
have hdc : Chars.deref c = tc := by
  rw [Chars.deref, htc]
  rfl
have hdd : Chars.deref d = td := by
  rw [Chars.deref, htd]
  rfl
refine ⟨?_, ?_, rfl, ?_, ?_⟩
· constructor
  · intro h
    rw [h]
  · intro h
    cases c
    cases d
    exact congrArg Chars.mk h
· constructor
  · intro h
    rw [h]
  · intro h
    rw [hdc, hdd] at h
    have hb : c.bytes = d.bytes := by
      rw [← hec, ← hed, h]
    cases c
    cases d
    exact congrArg Chars.mk hb
· rw [Chars.lt, hdc, hdd, ← hec, ← hed, utf8Encode_lexLt hwc hwd]
· intro hne
  constructor
  · rw [Chars.lt]
    show lexLt [] d.bytes = true
    rcases hb : d.bytes with _ | ⟨x, r⟩
    · exact absurd hb hne
    · rfl
  · intro h
    rw [← h] at hne
    exact hne rfl

theorem c8_witness :
    ((Chars.new = ⟨[102]⟩ ↔ (Chars.new).bytes = ([102] : List Nat)) ∧
      (Chars.new = ⟨[102]⟩ ↔
        Chars.deref Chars.new = Chars.deref ⟨[102]⟩) ∧
      Chars.lt Chars.new ⟨[102]⟩ = lexLt (Chars.new).bytes [102] ∧
      Chars.lt Chars.new ⟨[102]⟩ =
        lexLt (Chars.deref Chars.new) (Chars.deref ⟨[102]⟩) ∧
      (([102] : List Nat) ≠ [] →
        Chars.lt Chars.new ⟨[102]⟩ = true ∧ Chars.new ≠ ⟨[102]⟩)) :=
c8_eq_ord_textual Chars.new ⟨[102]⟩ (by decide) (by decide)

/-- C9: on non-negative fields the conversion succeeds even when `nanos` is
a full second or more (the sub-second range is not enforced); the excess
nanoseconds carry into the whole seconds of the result, which still equals
`seconds` whole seconds plus `nanos` nanoseconds. -/
theorem c9_nanos_carry (p : PDuration) (h64 : I64Range p.seconds)
    (h32 : I32Range p.nanos) (hs : 0 ≤ p.seconds)
    (hn : 1000000000 ≤ p.nanos) :
    ∃ d, p.try_into = some (.ok d) ∧
      (d.totalNanos : Int) = p.seconds * 1000000000 + p.nanos ∧
      (d.secs : Int) = p.seconds + p.nanos / 1000000000 ∧
      p.seconds < (d.secs : Int) := by
obtain ⟨h64a, h64b⟩ := h64
obtain ⟨h32a, h32b⟩ := h32
refine ⟨⟨p.seconds.toNat + p.nanos.toNat / 1000000000,
    p.nanos.toNat % 1000000000⟩,
  try_into_nonneg hs (by omega) h64b h32b, ?_, ?_, ?_⟩
· simp only [StdDuration.totalNanos]
  omega
· show ((p.seconds.toNat + p.nanos.toNat / 1000000000 : Nat) : Int) =
    p.seconds + p.nanos / 1000000000
  omega
· show p.seconds <
    ((p.seconds.toNat + p.nanos.toNat / 1000000000 : Nat) : Int)
  omega

theorem c9_witness :
    I64Range (0 : Int) ∧ I32Range (1500000000 : Int) ∧ (0 : Int) ≤ 0 ∧
    (1000000000 : Int) ≤ 1500000000 ∧
    ∃ d, PDuration.try_into ⟨0, 1500000000, ()⟩ = some (.ok d) ∧
      (d.totalNanos : Int) = 0 * 1000000000 + 1500000000 ∧
      (d.secs : Int) = 0 + (1500000000 : Int) / 1000000000 ∧
      (0 : Int) < (d.secs : Int) :=
⟨by decide, by decide, by decide, by decide,
 c9_nanos_carry ⟨0, 1500000000, ()⟩ (by decide) (by decide)
   (by decide) (by decide)⟩

/-- C10: extracting the raw buffer from a successfully constructed `Chars`
returns exactly the input bytes: `into_bytes` after `from_bytes` is the
identity on the byte content. -/
theorem c10_into_bytes_identity (b : List Nat) (c : Chars)
    (h : Chars.from_bytes b = .ok c) : Chars.into_bytes c = b := by
obtain ⟨rfl, -⟩ := Chars.from_bytes_ok h
rfl

theorem c10_witness :
    Chars.into_bytes ⟨[102, 111, 111]⟩ = [102, 111, 111] :=
c10_into_bytes_identity [102, 111, 111] ⟨[102, 111, 111]⟩ rfl

end RustProtobuf
